import Mathlib

set_option maxHeartbeats 1000000
set_option maxRecDepth 100000

/-!
Verification of the Sudoku generation backend in `src/backend/app.py`.

The Python module has four logic functions (`is_valid`, `solve_board`,
`generate_full_board`, `generate_puzzle`) and one route handler
(`get_sudoku` for `GET /generate-sudoku`).  They are embedded below as pure
Lean functions.  Mutation of the 9x9 board is modelled by functional update
(`place`), and the two uses of the `random` module are modelled by oracles:

* `random.sample(range(1, 10), 9)` always returns a permutation of the
  digits 1..9, so the digit orders drawn by `solve_board` are modelled by a
  stream `rand : Nat → Equiv.Perm (Fin 9)` of arbitrary permutations,
  consumed at an index `ctr` that is threaded through the recursion (one
  draw per visited empty cell, matching the single `random.sample` call per
  `solve_board` frame).
* `random.sample(range(81), num_holes)` is modelled by an oracle
  `sample : Nat → List (Fin 81)`; `random.sample`'s guarantee that the
  result is duplicate-free and of the requested length is a hypothesis of
  the theorems that need it.

Python's recursion is modelled with an explicit fuel argument that bounds
the depth of the recursion; the termination theorems show that fuel equal
to the number of empty cells (hence 81) always suffices, so the fuelled
function is total on every reachable input.
-/

/-- A 9x9 Sudoku grid: cell `(r, c)` holds a digit 0..9, where 0 means
empty.  The Python code stores it as a list of 9 lists of 9 ints. -/
abbrev Board := Fin 9 → Fin 9 → Nat

/-- `board[row][col] = v` from the Python code, as a functional update. -/
def place (b : Board) (r c : Fin 9) (v : Nat) : Board :=
  fun x y => if x = r ∧ y = c then v else b x y

/-- `[[0] * BOARD_SIZE for _ in range(BOARD_SIZE)]` in `generate_full_board`. -/
def emptyBoard : Board := fun _ _ => 0

/-- All 81 cells in row-major order: the iteration order of the nested
`for row in range(9): for col in range(9)` loops of `solve_board`, and of
the flattening list comprehensions in `generate_puzzle`. -/
def allCells : List (Fin 9 × Fin 9) :=
  (List.finRange 9).flatMap fun r => (List.finRange 9).map fun c => (r, c)

/-- The first empty cell in row-major order (`none` if the board is full):
the cell at which `solve_board`'s nested scan stops and branches. -/
def findEmpty (b : Board) : Option (Fin 9 × Fin 9) :=
  allCells.find? fun p => b p.1 p.2 == 0

/-- Number of empty (zero) cells of the board. -/
def numZeros (b : Board) : Nat := allCells.countP fun p => b p.1 p.2 == 0

/-- Index `start_row + i` (resp. `start_col + j`) of the 3x3-box scan in
`is_valid`, with the box start computed as `row - row % 3` exactly as in
the source. -/
def boxIdx (rc : Fin 9) (i : Fin 3) : Fin 9 :=
  ⟨rc.val - rc.val % 3 + i.val, by have h1 := rc.isLt; have h2 := i.isLt; omega⟩

/-- `is_valid(board, row, col, num)` from app.py: `num` clashes with no cell
of row `row`, no cell of column `col`, and no cell of the 3x3 box with top
left corner `(row - row % 3, col - col % 3)`. -/
def is_valid (board : Board) (row col : Fin 9) (num : Nat) : Bool :=
  ((List.finRange 9).all fun i => !(board row i == num || board i col == num)) &&
  ((List.finRange 3).all fun i => (List.finRange 3).all fun j =>
    !(board (boxIdx row i) (boxIdx col j) == num))

/-- One draw of `random.sample(range(1, 10), 9)`: an arbitrary permutation
of the nine digits, represented by a permutation `p` of `Fin 9`; the list
entry `d` stands for the digit `d.val + 1`. -/
def digitList (p : Equiv.Perm (Fin 9)) : List (Fin 9) :=
  (List.finRange 9).map fun i => p i

/-- The `for num in random.sample(range(1, 10), 9)` loop of `solve_board`,
with the recursive call abstracted as `solve` (the counter of consumed
random draws is threaded through it).  When a recursive call fails, the
Python code has restored the board and executes `board[row][col] = 0`, so
the loop continues on the original board; the embedding therefore resumes
with `board` (the pre-placement value) after a failed branch. -/
def tryDigits (solve : Nat → Board → Option (Bool × Board × Nat))
    (board : Board) (r c : Fin 9) : List (Fin 9) → Nat → Option (Bool × Board × Nat)
  | [], ctr => some (false, board, ctr)
  | d :: rest, ctr =>
    if is_valid board r c (d.val + 1) then
      match solve ctr (place board r c (d.val + 1)) with
      | none => none
      | some (true, b2, ctr2) => some (true, b2, ctr2)
      | some (false, _, ctr2) => tryDigits solve board r c rest ctr2
    else tryDigits solve board r c rest ctr

/-- `solve_board(board)` from app.py.  The nested row/column scan stops at
the first empty cell (`findEmpty`); a full board returns `True`; otherwise
the digits of a fresh random draw are tried in order.  `fuel` bounds the
recursion depth (one unit per cell that gets filled); the termination
theorems below show that the `none` (out-of-fuel) result never occurs when
`fuel ≥ numZeros board`, so fuel 81 models the unbounded Python recursion
on every input. -/
def solve_board (rand : Nat → Equiv.Perm (Fin 9)) (fuel ctr : Nat) (board : Board) :
    Option (Bool × Board × Nat) :=
  match findEmpty board with
  | none => some (true, board, ctr)
  | some (r, c) =>
    match fuel with
    | 0 => none
    | fuel' + 1 =>
      tryDigits (fun ctr2 b => solve_board rand fuel' ctr2 b) board r c
        (digitList (rand ctr)) (ctr + 1)

/-- `generate_full_board()` from app.py: start from the all-zero board and
run `solve_board` on it.  The boolean result of `solve_board` is discarded
and the board is returned, exactly as in the source.  The `none` branch is
the fuel artifact of the embedding; it is provably unreachable because the
empty board has 81 empty cells. -/
def generate_full_board (rand : Nat → Equiv.Perm (Fin 9)) : Board :=
  match solve_board rand 81 0 emptyBoard with
  | some (_, b, _) => b
  | none => emptyBoard

/-- `difficulty.lower()`: per-character lowercasing.  Python's `str.lower`
agrees with ASCII per-character lowercasing on all the strings this API
compares against (the three all-lowercase difficulty labels). -/
def strLower (s : String) : String := ⟨s.data.map Char.toLower⟩

/-- The dict `{'easy': 35, 'medium': 45, 'hard': 55}` together with
`dict.get` on a key. -/
def holesMap (s : String) : Option Nat :=
  if s = "easy" then some 35
  else if s = "medium" then some 45
  else if s = "hard" then some 55
  else none

/-- `num_holes = holes_map.get(difficulty.lower(), 45)` from
`generate_puzzle`. -/
def numHoles (difficulty : String) : Nat :=
  (holesMap (strLower difficulty)).getD 45

/-- `row` of `row, col = divmod(index, BOARD_SIZE)` in `generate_puzzle`. -/
def rowOf (i : Fin 81) : Fin 9 := ⟨i.val / 9, by have := i.isLt; omega⟩

/-- `col` of `row, col = divmod(index, BOARD_SIZE)` in `generate_puzzle`. -/
def colOf (i : Fin 81) : Fin 9 := ⟨i.val % 9, by omega⟩

/-- The `for index in cells_to_remove: ... puzzle_board[row][col] = 0` loop
of `generate_puzzle`. -/
def removeCells (b : Board) (cells : List (Fin 81)) : Board :=
  cells.foldl (fun bd i => place bd (rowOf i) (colOf i) 0) b

/-- `[cell for row in board for cell in row]`: row-major flattening. -/
def flattenBoard (b : Board) : List Nat := allCells.map fun p => b p.1 p.2

/-- `generate_puzzle(difficulty)` from app.py.  `puzzle_board` starts as
`copy.deepcopy(full_board)`; in the functional embedding the copy is value
sharing and the carving loop (`removeCells`) builds a new board, leaving
`full_board` untouched.  The drawn hole positions
`random.sample(range(81), num_holes)` come from the oracle `sample`. -/
def generate_puzzle (rand : Nat → Equiv.Perm (Fin 9)) (sample : Nat → List (Fin 81))
    (difficulty : String) : List Nat × List Nat :=
  let full_board := generate_full_board rand
  let num_holes := numHoles difficulty
  let cells_to_remove := sample num_holes
  let puzzle_board := removeCells full_board cells_to_remove
  (flattenBoard puzzle_board, flattenBoard full_board)

/-- The three JSON response shapes that the `/generate-sudoku` handler can
produce: the 200 payload, the 400 invalid-difficulty payload and the 500
generation-failure payload of the `except` branch. -/
inductive Response where
  | ok (difficulty : String) (puzzle solution : List Nat)
  | badRequest (error : String)
  | serverError (error : String)
deriving DecidableEq

/-- The HTTP status code attached to each response shape by app.py. -/
def statusCode : Response → Nat
  | .ok _ _ _ => 200
  | .badRequest _ => 400
  | .serverError _ => 500

/-- `get_sudoku()` from app.py: validate the difficulty (case-insensitive
membership in the three labels), 400 on failure, otherwise build a puzzle
and return the 200 payload echoing the difficulty string verbatim.  The
embedded `generate_puzzle` is a total function, so the `except` branch that
produces `Response.serverError "Failed to generate Sudoku puzzle."` is
unreachable in the model, matching the theorems below. -/
def get_sudoku (rand : Nat → Equiv.Perm (Fin 9)) (sample : Nat → List (Fin 81))
    (difficulty : String) : Response :=
  if strLower difficulty ∉ ["easy", "medium", "hard"] then
    Response.badRequest "Invalid difficulty. Choose 'easy', 'medium', or 'hard'."
  else
    let ps := generate_puzzle rand sample difficulty
    Response.ok difficulty ps.1 ps.2

/-! ### Specification-side predicates -/

/-- Two cells lie in a common row, column or 3x3 box. -/
def SameUnit (p q : Fin 9 × Fin 9) : Prop :=
  p.1 = q.1 ∨ p.2 = q.2 ∨ (p.1.val / 3 = q.1.val / 3 ∧ p.2.val / 3 = q.2.val / 3)

/-- No two distinct cells of a common unit hold the same nonzero digit. -/
def Consistent (b : Board) : Prop :=
  ∀ p q : Fin 9 × Fin 9, p ≠ q → SameUnit p q → b p.1 p.2 = 0 ∨ b p.1 p.2 ≠ b q.1 q.2

/-- `b2` agrees with `b` on every nonzero cell of `b`. -/
def Extends (b b2 : Board) : Prop := ∀ r c : Fin 9, b r c ≠ 0 → b2 r c = b r c

/-- A completely filled rule-valid grid. -/
def FullValid (b : Board) : Prop :=
  Consistent b ∧ ∀ r c : Fin 9, 1 ≤ b r c ∧ b r c ≤ 9

/-- The board has at least one completion into a full valid grid. -/
def Solvable (b : Board) : Prop := ∃ s : Board, Extends b s ∧ FullValid s

/-- A full valid solution: no cell empty, all digits 1..9, and every row,
column and 3x3 box (the box with block coordinates `(br, bc)` is the set of
cells `(x, y)` with `x / 3 = br` and `y / 3 = bc`) contains every digit
exactly once. -/
def IsSolvedBoard (b : Board) : Prop :=
  (∀ r c : Fin 9, 1 ≤ b r c ∧ b r c ≤ 9) ∧
  (∀ r : Fin 9, ∀ v : Nat, 1 ≤ v → v ≤ 9 → ∃! c : Fin 9, b r c = v) ∧
  (∀ c : Fin 9, ∀ v : Nat, 1 ≤ v → v ≤ 9 → ∃! r : Fin 9, b r c = v) ∧
  (∀ br bc : Fin 3, ∀ v : Nat, 1 ≤ v → v ≤ 9 →
    ∃! p : Fin 9 × Fin 9, (p.1.val / 3 = br.val ∧ p.2.val / 3 = bc.val) ∧ b p.1 p.2 = v)

/-- A concrete full valid grid: the standard shifted-rows pattern. -/
def patternBoard : Board := fun r c => (3 * (r.val % 3) + r.val / 3 + c.val) % 9 + 1

instance (p q : Fin 9 × Fin 9) : Decidable (SameUnit p q) := by
  unfold SameUnit
  infer_instance

instance (b : Board) : Decidable (Consistent b) := by
  unfold Consistent
  infer_instance

instance (b : Board) : Decidable (FullValid b) := by
  unfold FullValid
  infer_instance

/-- A concrete digit-order oracle (every draw is the identity permutation,
i.e. the ascending order 1..9), used to instantiate theorems. -/
def constRand : Nat → Equiv.Perm (Fin 9) := fun _ => Equiv.refl (Fin 9)

/-- A concrete hole-position oracle: the first `k` cell indices. -/
def takeSample : Nat → List (Fin 81) := fun k => (List.finRange 81).take k

/-! ### Basic facts about cells, boards and board updates -/

theorem mem_allCells (p : Fin 9 × Fin 9) : p ∈ allCells := by
  cases p with
  | mk r c => simp [allCells, List.mem_flatMap, List.mem_map, List.mem_finRange]

theorem allCells_length : allCells.length = 81 := by decide

theorem allCells_nodup : allCells.Nodup := by decide

theorem place_self (b : Board) (r c : Fin 9) (v : Nat) : place b r c v r c = v := by
  simp [place]

theorem place_other (b : Board) (r c x y : Fin 9) (v : Nat) (h : ¬(x = r ∧ y = c)) :
    place b r c v x y = b x y := by
  simp only [place, if_neg h]

theorem findEmpty_some {b : Board} {r c : Fin 9} (h : findEmpty b = some (r, c)) :
    b r c = 0 := by
  simp only [findEmpty] at h
  have h2 := List.find?_some h
  simpa using h2

theorem findEmpty_none {b : Board} (h : findEmpty b = none) (r c : Fin 9) : b r c ≠ 0 := by
  simp only [findEmpty] at h
  rw [List.find?_eq_none] at h
  have h2 := h (r, c) (mem_allCells _)
  simpa using h2

theorem numZeros_le (b : Board) : numZeros b ≤ 81 :=
  allCells_length ▸ List.countP_le_length _

theorem findEmpty_of_numZeros {b : Board} (h : numZeros b = 0) : findEmpty b = none := by
  simp only [numZeros] at h
  rw [List.countP_eq_zero] at h
  simp only [findEmpty]
  rw [List.find?_eq_none]
  intro p hp
  exact h p hp

theorem countP_le_of_imp {α : Type} {p q : α → Bool} :
    ∀ l : List α, (∀ a ∈ l, q a = true → p a = true) → l.countP q ≤ l.countP p := by
  intro l
  induction l with
  | nil => intro _; simp
  | cons x xs ih =>
    intro h
    rw [List.countP_cons, List.countP_cons]
    have h1 : xs.countP q ≤ xs.countP p :=
      ih fun a ha => h a (List.mem_cons_of_mem _ ha)
    have h2 : (if q x = true then 1 else 0) ≤ (if p x = true then 1 else 0) := by
      by_cases hq : q x = true
      · rw [if_pos hq, if_pos (h x (List.mem_cons_self _ _) hq)]
      · rw [if_neg hq]; omega
    omega

theorem countP_lt_of_mem {α : Type} {p q : α → Bool} :
    ∀ l : List α, (∀ a ∈ l, q a = true → p a = true) →
    ∀ a ∈ l, p a = true → q a = false → l.countP q < l.countP p := by
  intro l
  induction l with
  | nil => intro _ a ha; cases ha
  | cons x xs ih =>
    intro h a ha hpa hqa
    rw [List.countP_cons, List.countP_cons]
    rcases List.mem_cons.mp ha with rfl | hmem
    · have h1 : xs.countP q ≤ xs.countP p :=
        countP_le_of_imp xs fun e he => h e (List.mem_cons_of_mem _ he)
      simp only [hpa, hqa, if_pos, if_neg, Bool.false_eq_true, if_false]
      omega
    · have h1 := ih (fun e he => h e (List.mem_cons_of_mem _ he)) a hmem hpa hqa
      have h2 : (if q x = true then 1 else 0) ≤ (if p x = true then 1 else 0) := by
        by_cases hq : q x = true
        · rw [if_pos hq, if_pos (h x (List.mem_cons_self _ _) hq)]
        · rw [if_neg hq]; omega
      omega

theorem numZeros_place_lt {b : Board} {r c : Fin 9} {v : Nat}
    (h0 : b r c = 0) (hv : v ≠ 0) : numZeros (place b r c v) < numZeros b := by
  apply countP_lt_of_mem allCells _ (r, c) (mem_allCells _)
  · simpa using h0
  · simp [place_self, hv]
  · intro p _ hq
    by_cases hp : p.1 = r ∧ p.2 = c
    · exfalso
      rw [show p = (r, c) from Prod.ext hp.1 hp.2] at hq
      rw [place_self] at hq
      simp [hv] at hq
    · rwa [place_other _ _ _ _ _ _ hp] at hq

/-! ### Characterization of `is_valid` -/

theorem is_valid_iff (b : Board) (r c : Fin 9) (num : Nat) :
    is_valid b r c num = true ↔
    (∀ i : Fin 9, b r i ≠ num ∧ b i c ≠ num) ∧
    (∀ i j : Fin 3, b (boxIdx r i) (boxIdx c j) ≠ num) := by
  simp [is_valid, List.all_eq_true, List.mem_finRange, not_or]

theorem boxIdx_div (rc : Fin 9) (i : Fin 3) : (boxIdx rc i).val / 3 = rc.val / 3 := by
  have h1 := rc.isLt
  have h2 := i.isLt
  simp only [boxIdx]
  omega

theorem exists_boxIdx {rc x : Fin 9} (h : x.val / 3 = rc.val / 3) :
    ∃ i : Fin 3, boxIdx rc i = x := by
  have h1 := rc.isLt
  have h2 := x.isLt
  refine ⟨⟨x.val % 3, by omega⟩, ?_⟩
  apply Fin.ext
  simp only [boxIdx]
  omega

theorem is_valid_true_iff (b : Board) (r c : Fin 9) (num : Nat) :
    is_valid b r c num = true ↔
    (∀ i : Fin 9, b r i ≠ num) ∧ (∀ i : Fin 9, b i c ≠ num) ∧
    (∀ x y : Fin 9, x.val / 3 = r.val / 3 → y.val / 3 = c.val / 3 → b x y ≠ num) := by
  rw [is_valid_iff]
  constructor
  · rintro ⟨h1, h2⟩
    refine ⟨fun i => (h1 i).1, fun i => (h1 i).2, ?_⟩
    intro x y hx hy
    obtain ⟨i, hi⟩ := exists_boxIdx hx
    obtain ⟨j, hj⟩ := exists_boxIdx hy
    rw [← hi, ← hj]
    exact h2 i j
  · rintro ⟨h1, h2, h3⟩
    exact ⟨fun i => ⟨h1 i, h2 i⟩, fun i j => h3 _ _ (boxIdx_div r i) (boxIdx_div c j)⟩

/-! ### Digit draws -/

theorem mem_digitList (p : Equiv.Perm (Fin 9)) (d : Fin 9) : d ∈ digitList p := by
  simp only [digitList, List.mem_map]
  exact ⟨p.symm d, List.mem_finRange _, p.apply_symm_apply d⟩

/-! ### Sudoku validity predicates -/

theorem pair_eq {p : Fin 9 × Fin 9} {r c : Fin 9} (h1 : p.1 = r) (h2 : p.2 = c) :
    p = (r, c) := by
  cases p
  simp_all

theorem consistent_place {b : Board} {r c : Fin 9} {num : Nat}
    (hb : Consistent b) (h0 : b r c = 0) (hnum : num ≠ 0)
    (hv : is_valid b r c num = true) : Consistent (place b r c num) := by
  rw [is_valid_true_iff] at hv
  obtain ⟨hrow, hcol, hbox⟩ := hv
  intro p q hpq hunit
  by_cases hp : p = (r, c)
  · subst hp
    right
    rw [place_self]
    have hq : q ≠ (r, c) := fun hq => hpq hq.symm
    rw [place_other _ _ _ _ _ _ fun hc => hq (pair_eq hc.1 hc.2)]
    intro heq
    have heq' : b q.1 q.2 = num := heq.symm
    rcases hunit with h | h | h
    · have hr := hrow q.2
      rw [show r = q.1 from h] at hr
      exact hr heq'
    · have hc := hcol q.1
      rw [show c = q.2 from h] at hc
      exact hc heq'
    · exact hbox q.1 q.2 h.1.symm h.2.symm heq'
  · by_cases hq : q = (r, c)
    · subst hq
      rw [place_other _ _ _ _ _ _ fun hc => hp (pair_eq hc.1 hc.2), place_self]
      by_cases hbp : b p.1 p.2 = 0
      · exact Or.inl hbp
      · right
        intro heq
        rcases hunit with h | h | h
        · have hr := hrow p.2
          rw [← show p.1 = r from h] at hr
          exact hr heq
        · have hc := hcol p.1
          rw [← show p.2 = c from h] at hc
          exact hc heq
        · exact hbox p.1 p.2 h.1 h.2 heq
    · rw [place_other _ _ _ _ _ _ fun hc => hp (pair_eq hc.1 hc.2),
        place_other _ _ _ _ _ _ fun hc => hq (pair_eq hc.1 hc.2)]
      exact hb p q hpq hunit

theorem le9_place {b : Board} {r c : Fin 9} {v : Nat}
    (hb : ∀ x y : Fin 9, b x y ≤ 9) (hv : v ≤ 9) :
    ∀ x y : Fin 9, place b r c v x y ≤ 9 := by
  intro x y
  by_cases h : x = r ∧ y = c
  · simp only [place, if_pos h]
    exact hv
  · rw [place_other _ _ _ _ _ _ h]
    exact hb x y

/-! ### Unfolding equations for `solve_board` -/

theorem solve_board_full {rand : Nat → Equiv.Perm (Fin 9)} {fuel ctr : Nat} {board : Board}
    (h : findEmpty board = none) :
    solve_board rand fuel ctr board = some (true, board, ctr) := by
  unfold solve_board
  rw [h]

theorem solve_board_stuck {rand : Nat → Equiv.Perm (Fin 9)} {ctr : Nat} {board : Board}
    {r c : Fin 9} (h : findEmpty board = some (r, c)) :
    solve_board rand 0 ctr board = none := by
  unfold solve_board
  rw [h]

theorem solve_board_step {rand : Nat → Equiv.Perm (Fin 9)} {fuel ctr : Nat} {board : Board}
    {r c : Fin 9} (h : findEmpty board = some (r, c)) :
    solve_board rand (fuel + 1) ctr board =
      tryDigits (fun ctr2 b => solve_board rand fuel ctr2 b) board r c
        (digitList (rand ctr)) (ctr + 1) := by
  conv_lhs => unfold solve_board
  rw [h]

/-! ### Soundness: a successful search returns a full consistent board -/

theorem tryDigits_sound
    {solve : Nat → Board → Option (Bool × Board × Nat)}
    {board : Board} {r c : Fin 9}
    (hsolve : ∀ ctr0 b0 b2 ctr2, Consistent b0 → (∀ x y : Fin 9, b0 x y ≤ 9) →
      solve ctr0 b0 = some (true, b2, ctr2) →
      Consistent b2 ∧ (∀ x y : Fin 9, b2 x y ≤ 9) ∧ findEmpty b2 = none)
    (hb : Consistent board) (hle : ∀ x y : Fin 9, board x y ≤ 9) (h0 : board r c = 0) :
    ∀ digits ctr b2 ctr2,
      tryDigits solve board r c digits ctr = some (true, b2, ctr2) →
      Consistent b2 ∧ (∀ x y : Fin 9, b2 x y ≤ 9) ∧ findEmpty b2 = none := by
  intro digits
  induction digits with
  | nil =>
    intro ctr b2 ctr2 h
    simp [tryDigits] at h
  | cons d rest ih =>
    intro ctr b2 ctr2 h
    simp only [tryDigits] at h
    by_cases hval : is_valid board r c (d.val + 1) = true
    · rw [if_pos hval] at h
      cases hs : solve ctr (place board r c (d.val + 1)) with
      | none => rw [hs] at h; cases h
      | some out =>
        obtain ⟨bb, b3, ctr3⟩ := out
        rw [hs] at h
        cases bb with
        | true =>
          have hinj : b3 = b2 ∧ ctr3 = ctr2 := by
            simpa using h
          obtain ⟨rfl, rfl⟩ := hinj
          exact hsolve ctr _ _ _
            (consistent_place hb h0 (by omega) hval)
            (le9_place hle (by have := d.isLt; omega)) hs
        | false =>
          exact ih ctr3 b2 ctr2 h
    · rw [if_neg hval] at h
      exact ih ctr b2 ctr2 h

theorem solve_board_sound (rand : Nat → Equiv.Perm (Fin 9)) :
    ∀ fuel ctr board b2 ctr2, Consistent board → (∀ x y : Fin 9, board x y ≤ 9) →
    solve_board rand fuel ctr board = some (true, b2, ctr2) →
    Consistent b2 ∧ (∀ x y : Fin 9, b2 x y ≤ 9) ∧ findEmpty b2 = none := by
  intro fuel
  induction fuel with
  | zero =>
    intro ctr board b2 ctr2 hb hle h
    cases hfe : findEmpty board with
    | none =>
      rw [solve_board_full hfe] at h
      have hinj : board = b2 ∧ ctr = ctr2 := by simpa using h
      obtain ⟨rfl, rfl⟩ := hinj
      exact ⟨hb, hle, hfe⟩
    | some rc =>
      obtain ⟨r, c⟩ := rc
      rw [solve_board_stuck hfe] at h
      cases h
  | succ fuel ih =>
    intro ctr board b2 ctr2 hb hle h
    cases hfe : findEmpty board with
    | none =>
      rw [solve_board_full hfe] at h
      have hinj : board = b2 ∧ ctr = ctr2 := by simpa using h
      obtain ⟨rfl, rfl⟩ := hinj
      exact ⟨hb, hle, hfe⟩
    | some rc =>
      obtain ⟨r, c⟩ := rc
      rw [solve_board_step hfe] at h
      exact tryDigits_sound
        (fun ctr0 b0 b3 ctr3 hb0 hle0 hs => ih ctr0 b0 b3 ctr3 hb0 hle0 hs)
        hb hle (findEmpty_some hfe) _ _ _ _ h

/-! ### Termination: fuel equal to the number of empty cells suffices -/

theorem tryDigits_isSome
    {solve : Nat → Board → Option (Bool × Board × Nat)}
    {board : Board} {r c : Fin 9}
    (hsolve : ∀ ctr0 (d : Fin 9), is_valid board r c (d.val + 1) = true →
      (solve ctr0 (place board r c (d.val + 1))).isSome) :
    ∀ digits ctr, (tryDigits solve board r c digits ctr).isSome := by
  intro digits
  induction digits with
  | nil => intro ctr; simp [tryDigits]
  | cons d rest ih =>
    intro ctr
    simp only [tryDigits]
    cases hs : solve ctr (place board r c (d.val + 1)) with
    | none =>
      by_cases hval : is_valid board r c (d.val + 1) = true
      · have hcontra := hsolve ctr d hval
        rw [hs] at hcontra
        simp at hcontra
      · rw [if_neg hval]
        exact ih ctr
    | some out =>
      obtain ⟨bb, b3, ctr3⟩ := out
      by_cases hval : is_valid board r c (d.val + 1) = true
      · rw [if_pos hval]
        cases bb with
        | true => simp
        | false => exact ih ctr3
      · rw [if_neg hval]
        exact ih ctr

theorem solve_board_isSome (rand : Nat → Equiv.Perm (Fin 9)) :
    ∀ fuel ctr board, numZeros board ≤ fuel → (solve_board rand fuel ctr board).isSome := by
  intro fuel
  induction fuel with
  | zero =>
    intro ctr board hz
    have h0 : numZeros board = 0 := Nat.le_zero.mp hz
    rw [solve_board_full (findEmpty_of_numZeros h0)]
    simp
  | succ fuel ih =>
    intro ctr board hz
    cases hfe : findEmpty board with
    | none =>
      rw [solve_board_full hfe]
      simp
    | some rc =>
      obtain ⟨r, c⟩ := rc
      rw [solve_board_step hfe]
      apply tryDigits_isSome
      intro ctr0 d hval
      apply ih
      have hlt := numZeros_place_lt (findEmpty_some hfe) (show d.val + 1 ≠ 0 by omega)
      omega

/-! ### Completeness: a solvable board is always solved -/

theorem solvable_cell_valid {board s : Board} {r c : Fin 9}
    (hext : Extends board s) (hcons : Consistent s)
    (hbounds : ∀ x y : Fin 9, 1 ≤ s x y ∧ s x y ≤ 9) (h0 : board r c = 0) :
    is_valid board r c (s r c) = true := by
  rw [is_valid_true_iff]
  have hnz : ∀ x y : Fin 9, s x y ≠ 0 := fun x y => by have := (hbounds x y).1; omega
  have key : ∀ x y : Fin 9, (x, y) ≠ (r, c) → SameUnit (x, y) (r, c) →
      board x y ≠ s r c := by
    intro x y hne hunit heq
    have hbnz : board x y ≠ 0 := by
      intro hz
      rw [hz] at heq
      exact hnz r c heq.symm
    have hsxy : s x y = board x y := hext x y hbnz
    rcases hcons (x, y) (r, c) hne hunit with h | h
    · exact hnz x y h
    · exact h (by rw [hsxy, heq])
  refine ⟨?_, ?_, ?_⟩
  · intro i heq
    by_cases hic : i = c
    · rw [hic, h0] at heq
      exact hnz r c heq.symm
    · refine key r i ?_ (Or.inl rfl) heq
      intro hcontra
      rw [Prod.mk.injEq] at hcontra
      exact hic hcontra.2
  · intro i heq
    by_cases hir : i = r
    · rw [hir, h0] at heq
      exact hnz r c heq.symm
    · refine key i c ?_ (Or.inr (Or.inl rfl)) heq
      intro hcontra
      rw [Prod.mk.injEq] at hcontra
      exact hir hcontra.1
  · intro x y hx hy heq
    by_cases hxy : (x, y) = (r, c)
    · rw [Prod.mk.injEq] at hxy
      rw [hxy.1, hxy.2, h0] at heq
      exact hnz r c heq.symm
    · exact key x y hxy (Or.inr (Or.inr ⟨hx, hy⟩)) heq

theorem extends_place {board s : Board} {r c : Fin 9}
    (hext : Extends board s) : Extends (place board r c (s r c)) s := by
  intro x y hnz
  by_cases h : x = r ∧ y = c
  · obtain ⟨rfl, rfl⟩ := h
    rw [place_self]
  · rw [place_other _ _ _ _ _ _ h] at hnz ⊢
    exact hext x y hnz

theorem tryDigits_complete
    {solve : Nat → Board → Option (Bool × Board × Nat)}
    {board : Board} {r c : Fin 9} {d0 : Fin 9}
    (hsome : ∀ ctr0 (d : Fin 9), is_valid board r c (d.val + 1) = true →
      (solve ctr0 (place board r c (d.val + 1))).isSome)
    (hgood : ∀ ctr0, ∃ b2 ctr2, solve ctr0 (place board r c (d0.val + 1)) = some (true, b2, ctr2))
    (hval0 : is_valid board r c (d0.val + 1) = true) :
    ∀ digits ctr, d0 ∈ digits →
      ∃ b2 ctr2, tryDigits solve board r c digits ctr = some (true, b2, ctr2) := by
  intro digits
  induction digits with
  | nil =>
    intro ctr h
    cases h
  | cons d rest ih =>
    intro ctr hmem
    simp only [tryDigits]
    by_cases hval : is_valid board r c (d.val + 1) = true
    · rw [if_pos hval]
      cases hs : solve ctr (place board r c (d.val + 1)) with
      | none =>
        have hcontra := hsome ctr d hval
        rw [hs] at hcontra
        simp at hcontra
      | some out =>
        obtain ⟨bb, b3, ctr3⟩ := out
        cases bb with
        | true => exact ⟨b3, ctr3, rfl⟩
        | false =>
          have hd : d0 ∈ rest := by
            rcases List.mem_cons.mp hmem with heq | h
            · exfalso
              obtain ⟨b4, ctr4, hg⟩ := hgood ctr
              rw [heq] at hg
              rw [hs] at hg
              simp at hg
            · exact h
          exact ih ctr3 hd
    · rw [if_neg hval]
      have hd : d0 ∈ rest := by
        rcases List.mem_cons.mp hmem with heq | h
        · exfalso
          rw [heq] at hval0
          exact hval hval0
        · exact h
      exact ih ctr hd

theorem solve_board_complete (rand : Nat → Equiv.Perm (Fin 9)) :
    ∀ fuel ctr board, numZeros board ≤ fuel → Solvable board →
    ∃ b2 ctr2, solve_board rand fuel ctr board = some (true, b2, ctr2) := by
  intro fuel
  induction fuel with
  | zero =>
    intro ctr board hz _
    have h0 : numZeros board = 0 := Nat.le_zero.mp hz
    exact ⟨board, ctr, solve_board_full (findEmpty_of_numZeros h0)⟩
  | succ fuel ih =>
    intro ctr board hz hsolv
    cases hfe : findEmpty board with
    | none => exact ⟨board, ctr, solve_board_full hfe⟩
    | some rc =>
      obtain ⟨r, c⟩ := rc
      have h0 : board r c = 0 := findEmpty_some hfe
      obtain ⟨s, hext, hcons, hbounds⟩ := hsolv
      have hv := hbounds r c
      obtain ⟨d0, hd0⟩ : ∃ d0 : Fin 9, d0.val + 1 = s r c :=
        ⟨⟨s r c - 1, by omega⟩, by simp; omega⟩
      rw [solve_board_step hfe]
      have hfuel : ∀ d : Fin 9, numZeros (place board r c (d.val + 1)) ≤ fuel := by
        intro d
        have hlt := numZeros_place_lt h0 (show d.val + 1 ≠ 0 by omega)
        omega
      obtain ⟨b2, ctr2, hres⟩ := tryDigits_complete
        (fun ctr0 d _ => solve_board_isSome rand fuel ctr0 _ (hfuel d))
        (fun ctr0 => ih ctr0 _ (hfuel d0)
          (by rw [hd0]; exact ⟨s, extends_place hext, hcons, hbounds⟩))
        (by rw [hd0]; exact solvable_cell_valid hext hcons hbounds h0)
        (digitList (rand ctr)) (ctr + 1) (mem_digitList _ d0)
      exact ⟨b2, ctr2, hres⟩

theorem patternBoard_fullValid : FullValid patternBoard := by decide

theorem solvable_empty : Solvable emptyBoard := by
  refine ⟨patternBoard, ?_, patternBoard_fullValid⟩
  intro r c h
  exact absurd rfl h

theorem numZeros_empty : numZeros emptyBoard = 81 := by decide

theorem solve_board_empty (rand : Nat → Equiv.Perm (Fin 9)) (ctr : Nat) :
    ∃ b2 ctr2, solve_board rand 81 ctr emptyBoard = some (true, b2, ctr2) :=
  solve_board_complete rand 81 ctr emptyBoard (by rw [numZeros_empty]) solvable_empty

/-! ### Counting: a full consistent board has each digit once per unit -/

theorem unit_exists_unique {b : Board} (u : Fin 9 → Fin 9 × Fin 9)
    (hinj : Function.Injective u)
    (hunit : ∀ i j : Fin 9, SameUnit (u i) (u j))
    (hcons : Consistent b)
    (hle : ∀ x y : Fin 9, b x y ≤ 9) (hnz : ∀ x y : Fin 9, b x y ≠ 0)
    (v : Nat) (h1 : 1 ≤ v) (h9 : v ≤ 9) :
    ∃! i : Fin 9, b (u i).1 (u i).2 = v := by
  have hbnd : ∀ i : Fin 9, b (u i).1 (u i).2 - 1 < 9 := by
    intro i
    have hl := hle (u i).1 (u i).2
    have hn := hnz (u i).1 (u i).2
    omega
  have hfinj : Function.Injective
      (fun i : Fin 9 => (⟨b (u i).1 (u i).2 - 1, hbnd i⟩ : Fin 9)) := by
    intro i j hij
    by_contra hne
    have huij : u i ≠ u j := fun h => hne (hinj h)
    rcases hcons (u i) (u j) huij (hunit i j) with h | h
    · exact hnz _ _ h
    · apply h
      have hval : b (u i).1 (u i).2 - 1 = b (u j).1 (u j).2 - 1 := congrArg Fin.val hij
      have hni := hnz (u i).1 (u i).2
      have hnj := hnz (u j).1 (u j).2
      omega
  have hfsurj := Finite.injective_iff_surjective.mp hfinj
  obtain ⟨i, hi⟩ := hfsurj ⟨v - 1, by omega⟩
  have hival : b (u i).1 (u i).2 - 1 = v - 1 := congrArg Fin.val hi
  have hni := hnz (u i).1 (u i).2
  refine ⟨i, by omega, ?_⟩
  intro j hj
  apply hfinj
  apply Fin.ext
  show b (u j).1 (u j).2 - 1 = b (u i).1 (u i).2 - 1
  omega

theorem isSolved_of_consistent {b : Board}
    (hcons : Consistent b) (hle : ∀ x y : Fin 9, b x y ≤ 9)
    (hnz : ∀ x y : Fin 9, b x y ≠ 0) :
    IsSolvedBoard b := by
  refine ⟨fun r c => ⟨by have := hnz r c; omega, hle r c⟩, ?_, ?_, ?_⟩
  · intro r v h1 h9
    exact unit_exists_unique (fun i => (r, i))
      (fun i j h => by simpa using congrArg Prod.snd h)
      (fun i j => Or.inl rfl) hcons hle hnz v h1 h9
  · intro c v h1 h9
    exact unit_exists_unique (fun i => (i, c))
      (fun i j h => by simpa using congrArg Prod.fst h)
      (fun i j => Or.inr (Or.inl rfl)) hcons hle hnz v h1 h9
  · intro br bc v h1 h9
    have hbr := br.isLt
    have hbc := bc.isLt
    have hgen := unit_exists_unique
      (fun i : Fin 9 =>
        ((⟨3 * br.val + i.val / 3, by have := i.isLt; omega⟩ : Fin 9),
         (⟨3 * bc.val + i.val % 3, by have := i.isLt; omega⟩ : Fin 9)))
      (fun i j h => by
        have h1c := congrArg (fun p : Fin 9 × Fin 9 => p.1.val) h
        have h2c := congrArg (fun p : Fin 9 × Fin 9 => p.2.val) h
        simp at h1c h2c
        have := i.isLt
        have := j.isLt
        apply Fin.ext
        omega)
      (fun i j => Or.inr (Or.inr (by
        constructor
        · show (3 * br.val + i.val / 3) / 3 = (3 * br.val + j.val / 3) / 3
          have := i.isLt
          have := j.isLt
          omega
        · show (3 * bc.val + i.val % 3) / 3 = (3 * bc.val + j.val % 3) / 3
          have := i.isLt
          have := j.isLt
          omega)))
      hcons hle hnz v h1 h9
    obtain ⟨i, hi, _⟩ := hgen
    have hii := i.isLt
    refine ⟨(⟨3 * br.val + i.val / 3, by omega⟩, ⟨3 * bc.val + i.val % 3, by omega⟩),
      ⟨⟨?_, ?_⟩, hi⟩, ?_⟩
    · show (3 * br.val + i.val / 3) / 3 = br.val
      omega
    · show (3 * bc.val + i.val % 3) / 3 = bc.val
      omega
    rintro ⟨x, y⟩ ⟨⟨hx, hy⟩, hval⟩
    dsimp only at hx hy hval
    have hxl := x.isLt
    have hyl := y.isLt
    by_contra hne
    have hsu : SameUnit (x, y)
        (⟨3 * br.val + i.val / 3, by omega⟩, ⟨3 * bc.val + i.val % 3, by omega⟩) := by
      refine Or.inr (Or.inr ⟨?_, ?_⟩)
      · show x.val / 3 = (3 * br.val + i.val / 3) / 3
        omega
      · show y.val / 3 = (3 * bc.val + i.val % 3) / 3
        omega
    rcases hcons _ _ hne hsu with h | h
    · exact hnz _ _ h
    · exact h (hval.trans hi.symm)

/-! ### The generated full board -/

theorem consistent_empty : Consistent emptyBoard := by
  intro p q _ _
  exact Or.inl rfl

theorem generate_full_board_spec (rand : Nat → Equiv.Perm (Fin 9)) :
    Consistent (generate_full_board rand) ∧
    (∀ x y : Fin 9, generate_full_board rand x y ≤ 9) ∧
    findEmpty (generate_full_board rand) = none := by
  obtain ⟨b2, ctr2, h⟩ := solve_board_empty rand 0
  have hsound := solve_board_sound rand 81 0 emptyBoard b2 ctr2 consistent_empty
    (fun x y => by simp [emptyBoard]) h
  have hgen : generate_full_board rand = b2 := by
    unfold generate_full_board
    rw [h]
  rw [hgen]
  exact hsound

theorem generate_full_board_solved (rand : Nat → Equiv.Perm (Fin 9)) :
    IsSolvedBoard (generate_full_board rand) := by
  obtain ⟨hc, hle, hfe⟩ := generate_full_board_spec rand
  exact isSolved_of_consistent hc hle (findEmpty_none hfe)

/-! ### Flattening and carving -/

theorem flatten_length (b : Board) : (flattenBoard b).length = 81 := by
  simp [flattenBoard, allCells_length]

theorem allCells_getD : ∀ i : Fin 81,
    allCells.getD i.val ((0 : Fin 9), (0 : Fin 9)) = (rowOf i, colOf i) := by decide

theorem flatten_getD (b : Board) (i : Fin 81) :
    (flattenBoard b).getD i.val 0 = b (rowOf i) (colOf i) := by
  have hlen : i.val < (flattenBoard b).length := by rw [flatten_length]; exact i.isLt
  have hlen2 : i.val < allCells.length := by rw [allCells_length]; exact i.isLt
  have hcell : allCells[i.val] = (rowOf i, colOf i) := by
    have h := allCells_getD i
    rwa [List.getD_eq_getElem?_getD, List.getElem?_eq_getElem hlen2, Option.getD_some] at h
  rw [List.getD_eq_getElem?_getD, List.getElem?_eq_getElem hlen, Option.getD_some]
  show (allCells.map fun p => b p.1 p.2)[i.val] = b (rowOf i) (colOf i)
  rw [List.getElem_map, hcell]

theorem removeCells_get (cells : List (Fin 81)) (b : Board) (x y : Fin 9) :
    removeCells b cells x y =
      if ∃ i ∈ cells, rowOf i = x ∧ colOf i = y then 0 else b x y := by
  induction cells generalizing b with
  | nil => simp [removeCells]
  | cons j rest ih =>
    have hstep : removeCells b (j :: rest) = removeCells (place b (rowOf j) (colOf j) 0) rest := by
      simp [removeCells]
    rw [hstep, ih]
    by_cases hj : rowOf j = x ∧ colOf j = y
    · have hmem : ∃ i ∈ j :: rest, rowOf i = x ∧ colOf i = y :=
        ⟨j, List.mem_cons_self _ _, hj⟩
      rw [if_pos hmem]
      by_cases hrest : ∃ i ∈ rest, rowOf i = x ∧ colOf i = y
      · rw [if_pos hrest]
      · rw [if_neg hrest]
        have : place b (rowOf j) (colOf j) 0 x y = 0 := by
          rw [show x = rowOf j from hj.1.symm, show y = colOf j from hj.2.symm, place_self]
        exact this
    · have hiff : (∃ i ∈ rest, rowOf i = x ∧ colOf i = y) ↔
          (∃ i ∈ j :: rest, rowOf i = x ∧ colOf i = y) := by
        constructor
        · rintro ⟨i, hi, h⟩
          exact ⟨i, List.mem_cons_of_mem _ hi, h⟩
        · rintro ⟨i, hi, h⟩
          rcases List.mem_cons.mp hi with rfl | hi2
          · exact absurd h hj
          · exact ⟨i, hi2, h⟩
      by_cases hrest : ∃ i ∈ rest, rowOf i = x ∧ colOf i = y
      · rw [if_pos hrest, if_pos (hiff.mp hrest)]
      · rw [if_neg hrest, if_neg fun h => hrest (hiff.mpr h)]
        apply place_other
        intro hcon
        exact hj ⟨hcon.1.symm, hcon.2.symm⟩

theorem countP_congr {β : Type} {p q : β → Bool} :
    ∀ l : List β, (∀ a ∈ l, p a = q a) → l.countP p = l.countP q := by
  intro l
  induction l with
  | nil => intro _; rfl
  | cons x xs ih =>
    intro h
    rw [List.countP_cons, List.countP_cons, h x (List.mem_cons_self _ _),
      ih fun a ha => h a (List.mem_cons_of_mem _ ha)]

theorem countP_or_singleton {β : Type} [DecidableEq β] (q : β → Prop) [DecidablePred q]
    {a : β} (hqa : ¬ q a) :
    ∀ l : List β, l.Nodup → a ∈ l →
      (l.countP fun p => decide (p = a ∨ q p)) = (l.countP fun p => decide (q p)) + 1 := by
  intro l
  induction l with
  | nil => intro _ h; cases h
  | cons x xs ih =>
    intro hnd hmem
    rw [List.countP_cons, List.countP_cons]
    rcases List.mem_cons.mp hmem with rfl | hm
    · have hax : a ∉ xs := (List.nodup_cons.mp hnd).1
      have htail : (xs.countP fun p => decide (p = a ∨ q p)) =
          xs.countP fun p => decide (q p) := by
        apply countP_congr
        intro p hp
        have hpa : p ≠ a := fun h => hax (h ▸ hp)
        simp [hpa]
      rw [htail]
      simp [hqa]
    · have hxa : x ≠ a := by
        intro h
        exact (List.nodup_cons.mp hnd).1 (h ▸ hm)
      have h2 := ih (List.nodup_cons.mp hnd).2 hm
      rw [h2]
      simp only [hxa, decide_eq_true_eq]
      by_cases hqx : q x
      · simp [hqx]
      · simp [hqx, hxa]

theorem rowColOf_inj : Function.Injective fun i : Fin 81 => (rowOf i, colOf i) := by
  intro i j h
  have h1 : (rowOf i).val = (rowOf j).val := congrArg (fun p : Fin 9 × Fin 9 => p.1.val) h
  have h2 : (colOf i).val = (colOf j).val := congrArg (fun p : Fin 9 × Fin 9 => p.2.val) h
  simp only [rowOf, colOf] at h1 h2
  have hi := i.isLt
  have hj := j.isLt
  apply Fin.ext
  omega

theorem countP_image_eq_length {α β : Type} [DecidableEq α] [DecidableEq β]
    {f : α → β} (hf : Function.Injective f) :
    ∀ (cells : List α) (l : List β), l.Nodup → (∀ x, f x ∈ l) → cells.Nodup →
    (l.countP fun p => decide (∃ i ∈ cells, f i = p)) = cells.length := by
  intro cells
  induction cells with
  | nil =>
    intro l _ _ _
    simp
  | cons j rest ih =>
    intro l hlnd hcompl hnd
    have hjnot : j ∉ rest := (List.nodup_cons.mp hnd).1
    have hqfj : ¬ ∃ i ∈ rest, f i = f j := by
      rintro ⟨i, hi, hfi⟩
      exact hjnot (hf hfi ▸ hi)
    have hsplit : (l.countP fun p => decide (∃ i ∈ j :: rest, f i = p)) =
        l.countP fun p => decide (p = f j ∨ ∃ i ∈ rest, f i = p) := by
      apply countP_congr
      intro p _
      rw [decide_eq_decide]
      constructor
      · rintro ⟨i, hi, hfi⟩
        rcases List.mem_cons.mp hi with rfl | hi2
        · exact Or.inl hfi.symm
        · exact Or.inr ⟨i, hi2, hfi⟩
      · rintro (h | ⟨i, hi, hfi⟩)
        · exact ⟨j, List.mem_cons_self _ _, h.symm⟩
        · exact ⟨i, List.mem_cons_of_mem _ hi, hfi⟩
    have hone := countP_or_singleton (fun p => ∃ i ∈ rest, f i = p) hqfj l hlnd (hcompl j)
    rw [hsplit, hone, ih l hlnd hcompl (List.nodup_cons.mp hnd).2, List.length_cons]

theorem count_zero_flatten (b : Board) : (flattenBoard b).count 0 = numZeros b := by
  show (allCells.map fun p => b p.1 p.2).count 0 = numZeros b
  rw [List.count_eq_countP, List.countP_map]
  rfl

theorem numZeros_removeCells {b : Board} {cells : List (Fin 81)}
    (hnd : cells.Nodup) (hnz : ∀ x y : Fin 9, b x y ≠ 0) :
    numZeros (removeCells b cells) = cells.length := by
  have h1 : (allCells.countP fun p => removeCells b cells p.1 p.2 == 0) =
      allCells.countP fun p => decide (∃ i ∈ cells, (rowOf i, colOf i) = p) := by
    apply countP_congr
    intro p _
    rw [removeCells_get]
    by_cases h : ∃ i ∈ cells, rowOf i = p.1 ∧ colOf i = p.2
    · rw [if_pos h]
      have hex : ∃ i ∈ cells, (rowOf i, colOf i) = p := by
        obtain ⟨i, hi, h1, h2⟩ := h
        exact ⟨i, hi, by rw [Prod.ext_iff]; exact ⟨h1, h2⟩⟩
      simp [hex]
    · rw [if_neg h]
      have hnot : ¬ ∃ i ∈ cells, (rowOf i, colOf i) = p := by
        rintro ⟨i, hi, heq⟩
        rw [Prod.ext_iff] at heq
        exact h ⟨i, hi, heq.1, heq.2⟩
      simp [hnot, hnz p.1 p.2]
  show (allCells.countP fun p => removeCells b cells p.1 p.2 == 0) = cells.length
  rw [h1]
  exact countP_image_eq_length rowColOf_inj cells allCells allCells_nodup
    (fun i => mem_allCells _) hnd

/-! ### Route-level facts -/

theorem generate_puzzle_eq (rand : Nat → Equiv.Perm (Fin 9))
    (sample : Nat → List (Fin 81)) (difficulty : String) :
    generate_puzzle rand sample difficulty =
      (flattenBoard (removeCells (generate_full_board rand) (sample (numHoles difficulty))),
       flattenBoard (generate_full_board rand)) := rfl

theorem get_sudoku_invalid {rand : Nat → Equiv.Perm (Fin 9)}
    {sample : Nat → List (Fin 81)} {difficulty : String}
    (h : strLower difficulty ∉ ["easy", "medium", "hard"]) :
    get_sudoku rand sample difficulty =
      Response.badRequest "Invalid difficulty. Choose 'easy', 'medium', or 'hard'." := by
  simp only [get_sudoku, if_pos h]

theorem get_sudoku_valid {rand : Nat → Equiv.Perm (Fin 9)}
    {sample : Nat → List (Fin 81)} {difficulty : String}
    (h : strLower difficulty ∈ ["easy", "medium", "hard"]) :
    get_sudoku rand sample difficulty =
      Response.ok difficulty (generate_puzzle rand sample difficulty).1
        (generate_puzzle rand sample difficulty).2 := by
  simp only [get_sudoku, if_neg (not_not_intro h)]

theorem numZeros_eq_zero_of_findEmpty {b : Board} (h : findEmpty b = none) :
    numZeros b = 0 := by
  show allCells.countP _ = 0
  rw [List.countP_eq_zero]
  intro p _
  simpa using findEmpty_none h p.1 p.2

theorem generate_full_board_nonzero (rand : Nat → Equiv.Perm (Fin 9)) :
    ∀ x y : Fin 9, generate_full_board rand x y ≠ 0 := by
  intro x y
  have h := ((generate_full_board_solved rand).1 x y).1
  omega

/-! ### The claims -/

/-- C1: for every difficulty and every behaviour of the two random oracles,
the solution sequence returned by `generate_puzzle` is the row-major
flattening of a completely solved Sudoku grid: every cell holds a digit
1..9 (no zeros) and every row, every column and every 3x3 box contains each
digit 1..9 exactly once (`IsSolvedBoard`). -/
theorem C1_solution_is_complete_valid (rand : Nat → Equiv.Perm (Fin 9))
    (sample : Nat → List (Fin 81)) (difficulty : String) :
    ∃ b : Board, (generate_puzzle rand sample difficulty).2 = flattenBoard b ∧
      IsSolvedBoard b :=
  ⟨generate_full_board rand, by rw [generate_puzzle_eq], generate_full_board_solved rand⟩

/-- C2: the puzzle is obtained from the solution purely by deletion: at
every index, the puzzle entry is either 0 or equal to the solution entry at
the same index. -/
theorem C2_puzzle_is_deletion (rand : Nat → Equiv.Perm (Fin 9))
    (sample : Nat → List (Fin 81)) (difficulty : String) (i : Fin 81) :
    (generate_puzzle rand sample difficulty).1.getD i.val 0 = 0 ∨
    (generate_puzzle rand sample difficulty).1.getD i.val 0 =
      (generate_puzzle rand sample difficulty).2.getD i.val 0 := by
  rw [generate_puzzle_eq]
  dsimp only
  rw [flatten_getD, flatten_getD, removeCells_get]
  by_cases h : ∃ j ∈ sample (numHoles difficulty), rowOf j = rowOf i ∧ colOf j = colOf i
  · rw [if_pos h]
    exact Or.inl rfl
  · rw [if_neg h]
    exact Or.inr rfl

/-- C3: when the hole-position draw is duplicate-free and of the requested
length (which `random.sample` guarantees), the puzzle contains exactly
`numHoles difficulty` zero cells, and the hole counts mapped to the three
recognized labels are 35, 45, 55. -/
theorem C3_exact_hole_count (rand : Nat → Equiv.Perm (Fin 9))
    (sample : Nat → List (Fin 81)) (difficulty : String)
    (hnd : (sample (numHoles difficulty)).Nodup)
    (hlen : (sample (numHoles difficulty)).length = numHoles difficulty) :
    (generate_puzzle rand sample difficulty).1.count 0 = numHoles difficulty ∧
    numHoles "easy" = 35 ∧ numHoles "medium" = 45 ∧ numHoles "hard" = 55 := by
  refine ⟨?_, by decide, by decide, by decide⟩
  rw [generate_puzzle_eq]
  dsimp only
  rw [count_zero_flatten, numZeros_removeCells hnd (generate_full_board_nonzero rand), hlen]

/-- Witness for C3: a concrete duplicate-free draw of the right length for
difficulty "easy". -/
theorem C3_exact_hole_count_witness :
    (takeSample (numHoles "easy")).Nodup ∧
    (takeSample (numHoles "easy")).length = numHoles "easy" ∧
    (generate_puzzle constRand takeSample "easy").1.count 0 = numHoles "easy" := by
  have hnd : (takeSample (numHoles "easy")).Nodup := by decide
  have hlen : (takeSample (numHoles "easy")).length = numHoles "easy" := by decide
  exact ⟨hnd, hlen, (C3_exact_hole_count constRand takeSample "easy" hnd hlen).1⟩

/-- C4: for every grid, cell and digit 1..9, `is_valid` returns `false`
exactly when the digit already occurs somewhere in the row, somewhere in
the column, or somewhere in the 3x3 box containing the cell (the cells
`(x, y)` with `x / 3 = row / 3` and `y / 3 = col / 3`, i.e. the box whose
top-left corner is `(row - row % 3, col - col % 3)`), and `true` otherwise;
it is a pure function of its arguments. -/
theorem C4_is_valid_spec (b : Board) (r c : Fin 9) (num : Nat)
    (h1 : 1 ≤ num) (h9 : num ≤ 9) :
    is_valid b r c num = false ↔
      (∃ i : Fin 9, b r i = num) ∨ (∃ i : Fin 9, b i c = num) ∨
      (∃ x y : Fin 9, x.val / 3 = r.val / 3 ∧ y.val / 3 = c.val / 3 ∧ b x y = num) := by
  have hchar := is_valid_true_iff b r c num
  constructor
  · intro hfalse
    by_contra hnone
    push_neg at hnone
    obtain ⟨hrow, hcol, hbox⟩ := hnone
    have hval : is_valid b r c num = true := hchar.mpr ⟨hrow, hcol, hbox⟩
    rw [hval] at hfalse
    cases hfalse
  · intro hocc
    cases hval : is_valid b r c num with
    | false => rfl
    | true =>
      exfalso
      obtain ⟨hrow, hcol, hbox⟩ := hchar.mp hval
      rcases hocc with ⟨i, hi⟩ | ⟨i, hi⟩ | ⟨x, y, hx, hy, hv⟩
      · exact hrow i hi
      · exact hcol i hi
      · exact hbox x y hx hy hv

/-- Witness for C4: the digit 5 on the empty board. -/
theorem C4_is_valid_spec_witness :
    1 ≤ 5 ∧ 5 ≤ 9 ∧
    (is_valid emptyBoard 0 0 5 = false ↔
      (∃ i : Fin 9, emptyBoard 0 i = 5) ∨ (∃ i : Fin 9, emptyBoard i 0 = 5) ∨
      (∃ x y : Fin 9, x.val / 3 = (0 : Fin 9).val / 3 ∧ y.val / 3 = (0 : Fin 9).val / 3 ∧
        emptyBoard x y = 5)) :=
  ⟨by decide, by decide, C4_is_valid_spec emptyBoard 0 0 5 (by decide) (by decide)⟩

/-- C5: both returned sequences have exactly 81 entries and are row-major
flattenings of their grids (entry `i` is the grid cell in row `i / 9`,
column `i % 9`); on a recognized difficulty the response is the 200 payload
carrying both sequences with the difficulty echoed. -/
theorem C5_row_major_and_response (rand : Nat → Equiv.Perm (Fin 9))
    (sample : Nat → List (Fin 81)) (difficulty : String) :
    (generate_puzzle rand sample difficulty).1.length = 81 ∧
    (generate_puzzle rand sample difficulty).2.length = 81 ∧
    (∃ pb sb : Board,
      generate_puzzle rand sample difficulty = (flattenBoard pb, flattenBoard sb) ∧
      (∀ i : Fin 81, (flattenBoard pb).getD i.val 0 = pb (rowOf i) (colOf i)) ∧
      (∀ i : Fin 81, (flattenBoard sb).getD i.val 0 = sb (rowOf i) (colOf i))) ∧
    (strLower difficulty ∈ ["easy", "medium", "hard"] →
      get_sudoku rand sample difficulty =
        Response.ok difficulty (generate_puzzle rand sample difficulty).1
          (generate_puzzle rand sample difficulty).2) := by
  refine ⟨?_, ?_,
    ⟨removeCells (generate_full_board rand) (sample (numHoles difficulty)),
     generate_full_board rand, generate_puzzle_eq _ _ _,
     fun i => flatten_getD _ i, fun i => flatten_getD _ i⟩,
    fun h => get_sudoku_valid h⟩
  · rw [generate_puzzle_eq]
    exact flatten_length _
  · rw [generate_puzzle_eq]
    exact flatten_length _

/-- Witness for C5: difficulty "medium" is recognized and the 200 payload
is produced. -/
theorem C5_row_major_and_response_witness :
    strLower "medium" ∈ ["easy", "medium", "hard"] ∧
    (generate_puzzle constRand takeSample "medium").1.length = 81 ∧
    get_sudoku constRand takeSample "medium" =
      Response.ok "medium" (generate_puzzle constRand takeSample "medium").1
        (generate_puzzle constRand takeSample "medium").2 := by
  have h := C5_row_major_and_response constRand takeSample "medium"
  exact ⟨by decide, h.1, h.2.2.2 (by decide)⟩

/-- C6: a difficulty whose lowercasing is not one of the three labels is
answered with the 400 response carrying exactly the documented error body,
and board generation is never consulted: the response is the same whatever
the two random oracles are. -/
theorem C6_invalid_difficulty_400 (rand : Nat → Equiv.Perm (Fin 9))
    (sample : Nat → List (Fin 81)) (difficulty : String)
    (h : strLower difficulty ∉ ["easy", "medium", "hard"]) :
    get_sudoku rand sample difficulty =
      Response.badRequest "Invalid difficulty. Choose 'easy', 'medium', or 'hard'." ∧
    statusCode (get_sudoku rand sample difficulty) = 400 ∧
    ∀ (rand2 : Nat → Equiv.Perm (Fin 9)) (sample2 : Nat → List (Fin 81)),
      get_sudoku rand sample difficulty = get_sudoku rand2 sample2 difficulty := by
  have he : get_sudoku rand sample difficulty =
      Response.badRequest "Invalid difficulty. Choose 'easy', 'medium', or 'hard'." :=
    get_sudoku_invalid h
  refine ⟨he, by rw [he]; rfl, fun rand2 sample2 => ?_⟩
  rw [he, get_sudoku_invalid h]

/-- Witness for C6: the difficulty "bogus". -/
theorem C6_invalid_difficulty_400_witness :
    strLower "bogus" ∉ ["easy", "medium", "hard"] ∧
    get_sudoku constRand takeSample "bogus" =
      Response.badRequest "Invalid difficulty. Choose 'easy', 'medium', or 'hard'." :=
  ⟨by decide, (C6_invalid_difficulty_400 constRand takeSample "bogus" (by decide)).1⟩

/-- C7: board generation never fails: for every oracle behaviour the
backtracking search started on the empty board succeeds (so the antecedent
"generation fails" of the claim never occurs, and in the Python code
`generate_puzzle` raises no exception), every 200 response carries a
complete (zero-free, 81-entry) solution, and the 500 branch of the handler
is unreachable.  The process cannot crash in the model because every
embedded function is total. -/
theorem C7_generation_never_fails (rand : Nat → Equiv.Perm (Fin 9))
    (sample : Nat → List (Fin 81)) (difficulty : String) (ctr : Nat) :
    (∃ b2 ctr2, solve_board rand 81 ctr emptyBoard = some (true, b2, ctr2)) ∧
    (∀ df p s, get_sudoku rand sample difficulty = Response.ok df p s →
      s.count 0 = 0 ∧ s.length = 81) ∧
    statusCode (get_sudoku rand sample difficulty) ≠ 500 := by
  refine ⟨solve_board_empty rand ctr, ?_, ?_⟩
  · intro df p s h
    by_cases hv : strLower difficulty ∉ ["easy", "medium", "hard"]
    · rw [get_sudoku_invalid hv] at h
      cases h
    · rw [get_sudoku_valid (not_not.mp hv)] at h
      injection h with hd hp hs
      rw [← hs, generate_puzzle_eq]
      dsimp only
      constructor
      · rw [count_zero_flatten]
        exact numZeros_eq_zero_of_findEmpty (generate_full_board_spec rand).2.2
      · exact flatten_length _
  · by_cases hv : strLower difficulty ∉ ["easy", "medium", "hard"]
    · rw [get_sudoku_invalid hv]
      simp [statusCode]
    · rw [get_sudoku_valid (not_not.mp hv)]
      simp [statusCode]

/-- Witness for C7: a concrete 200 response whose solution part is checked
complete by the theorem. -/
theorem C7_generation_never_fails_witness :
    get_sudoku constRand takeSample "hard" =
      Response.ok "hard" (generate_puzzle constRand takeSample "hard").1
        (generate_puzzle constRand takeSample "hard").2 ∧
    (generate_puzzle constRand takeSample "hard").2.count 0 = 0 := by
  have hok : get_sudoku constRand takeSample "hard" =
      Response.ok "hard" (generate_puzzle constRand takeSample "hard").1
        (generate_puzzle constRand takeSample "hard").2 := get_sudoku_valid (by decide)
  exact ⟨hok,
    ((C7_generation_never_fails constRand takeSample "hard" 0).2.1 _ _ _ hok).1⟩

/-- C8: the solution sequence returned by `generate_puzzle` is the
flattening of the full board exactly as `generate_full_board` produced it:
carving the puzzle (a deep copy in the source) never affects it, so it does
not depend on the drawn hole positions at all. -/
theorem C8_solution_independent_of_carving (rand : Nat → Equiv.Perm (Fin 9))
    (sample sample2 : Nat → List (Fin 81)) (d d2 : String) :
    (generate_puzzle rand sample d).2 = flattenBoard (generate_full_board rand) ∧
    (generate_puzzle rand sample d).2 = (generate_puzzle rand sample2 d2).2 := by
  constructor
  · rw [generate_puzzle_eq]
  · rw [generate_puzzle_eq, generate_puzzle_eq]

/-- C9: the search terminates on every input board: the number of empty
cells never exceeds 81, fuel equal to the number of empty cells always
suffices (the out-of-fuel result `none` never occurs, so recursion depth is
bounded by 81 frames), and each recursive call operates on a board with
strictly fewer empty cells. -/
theorem C9_termination (rand : Nat → Equiv.Perm (Fin 9)) (fuel ctr : Nat)
    (b : Board) (r c : Fin 9) (v : Nat) :
    numZeros b ≤ 81 ∧
    (numZeros b ≤ fuel → (solve_board rand fuel ctr b).isSome) ∧
    (b r c = 0 → v ≠ 0 → numZeros (place b r c v) < numZeros b) :=
  ⟨numZeros_le b, fun h => solve_board_isSome rand fuel ctr b h,
   fun h0 hv => numZeros_place_lt h0 hv⟩

/-- Witness for C9: the empty board with fuel 81 and a placement at the
corner. -/
theorem C9_termination_witness :
    numZeros emptyBoard ≤ 81 ∧ (solve_board constRand 81 0 emptyBoard).isSome ∧
    numZeros (place emptyBoard 0 0 5) < numZeros emptyBoard := by
  have h := C9_termination constRand 81 0 emptyBoard 0 0 5
  exact ⟨h.1, h.2.1 (by decide), h.2.2 (by decide) (by decide)⟩

/-- C10: `generate_puzzle` itself never rejects a difficulty: the hole
count is computed from the lowercased difficulty with 35/45/55 for the
three labels and 45 (the medium count) for anything else, so mixed-case
labels such as "EASY" map to 35 and pass the route's validation (being
echoed back verbatim in the 200 payload), while for unrecognized labels the
route's 400 check makes the silent 45 fallback unreachable over HTTP. -/
theorem C10_fallback_and_case (rand : Nat → Equiv.Perm (Fin 9))
    (sample : Nat → List (Fin 81)) (d : String) :
    numHoles d = (if strLower d = "easy" then 35
      else if strLower d = "medium" then 45
      else if strLower d = "hard" then 55 else 45) ∧
    numHoles "EASY" = 35 ∧ numHoles "bogus" = 45 ∧
    (strLower d ∉ ["easy", "medium", "hard"] →
      get_sudoku rand sample d =
        Response.badRequest "Invalid difficulty. Choose 'easy', 'medium', or 'hard'.") ∧
    get_sudoku rand sample "EASY" =
      Response.ok "EASY" (generate_puzzle rand sample "EASY").1
        (generate_puzzle rand sample "EASY").2 := by
  refine ⟨?_, by decide, by decide, fun h => get_sudoku_invalid h,
    get_sudoku_valid (by decide)⟩
  unfold numHoles holesMap
  by_cases hA : strLower d = "easy"
  · simp [hA]
  · by_cases hB : strLower d = "medium"
    · simp [hA, hB]
    · by_cases hC : strLower d = "hard"
      · simp [hA, hB, hC]
      · simp [hA, hB, hC]

/-- Witness for C10: the difficulty "bogus" is not a recognized label and
yields the 400 response. -/
theorem C10_fallback_and_case_witness :
    strLower "bogus" ∉ ["easy", "medium", "hard"] ∧
    get_sudoku constRand takeSample "bogus" =
      Response.badRequest "Invalid difficulty. Choose 'easy', 'medium', or 'hard'." ∧
    numHoles "EASY" = 35 := by
  have h := C10_fallback_and_case constRand takeSample "bogus"
  exact ⟨by decide, h.2.2.2.1 (by decide), h.2.1⟩
